import Mathlib

/-!
Verification of the section-boundary detection core of `split_paper.py`
(paper2llm). The script splits a Markdown paper into main body, backmatter
and appendix using regular-expression heading detection.

The embedding below models documents as `List Char` and models exactly the
regex constructs the script uses (`#+`, `\s+`, `\d+`, `#{3,4}`, literals
under `re.IGNORECASE`, alternation, `?`, `\b`, `$`), with Python's
`re.MULTILINE` search semantics: a `^`-anchored pattern matches at offset 0
or right after a newline, and `re.search` returns the earliest such offset.
Character classes are modelled at the ASCII level (the script's patterns are
ASCII); Python's Unicode extensions of `\s`, `\w`, `\d` and case folding are
out of modelled scope.
-/

namespace SplitPaper

/-- `\s` at ASCII level (Python's whitespace class). -/
def isPySpace (c : Char) : Bool :=
  c = ' ' || c = '\t' || c = '\n' || c = '\r' || c = '\x0b' || c = '\x0c'

/-- `\d` at ASCII level. -/
def isPyDigit (c : Char) : Bool := '0' ≤ c && c ≤ '9'

/-- `\w` at ASCII level: letters, digits, underscore. -/
def isWordChar (c : Char) : Bool := c.isAlphanum || c = '_'

/-- The literal `#` (for `#+` and `#{3,4}`). -/
def isHashChar (c : Char) : Bool := c = '#'

/-- Python `str.split('\n')`: always at least one piece; a trailing newline
yields a trailing empty piece. -/
def splitNl : List Char → List (List Char)
  | [] => [[]]
  | c :: cs =>
    if c = '\n' then [] :: splitNl cs
    else
      match splitNl cs with
      | [] => [[c]]
      | l :: ls => (c :: l) :: ls

/-- Regular-expression fragment covering exactly the constructs used by the
script.  `cls q lo hi` is a character-class repetition (`q{lo,hi}`, `hi =
none` meaning unbounded); `lit` is a literal matched case-insensitively
(`re.IGNORECASE`); `wb` is `\b`; `eol` is `$` (as used on single split
lines, i.e. end of input or a sole final newline). -/
inductive RE where
  | lit : List Char → RE
  | cls : (Char → Bool) → Nat → Option Nat → RE
  | opt : RE → RE
  | alt : RE → RE → RE
  | seq : RE → RE → RE
  | wb : RE
  | eol : RE

/-- Case-insensitive literal match of `l` at offset `i` of `s` (ASCII case
folding, as in `re.IGNORECASE` on ASCII text). -/
def litMatch : List Char → List Char → Nat → Bool
  | [], _, _ => true
  | c :: cs, s, i =>
    match s.get? i with
    | some d => (c.toLower = d.toLower) && litMatch cs s (i + 1)
    | none => false

/-- Is `some n` positive (or `none`, i.e. unbounded)? -/
def hiPos : Option Nat → Bool
  | none => true
  | some n => 0 < n

/-- Decrement an optional bound. -/
def decOpt : Option Nat → Option Nat
  | none => none
  | some n => some (n - 1)

/-- All offsets reachable by matching between `lo` and `hi` characters of a
class against `rest` starting at absolute offset `i`. -/
def clsEnds (q : Char → Bool) : Nat → Option Nat → List Char → Nat → List Nat
  | lo, _, [], i => if lo = 0 then [i] else []
  | lo, hi, c :: rest, i =>
    (if lo = 0 then [i] else []) ++
      (if hiPos hi && q c then clsEnds q (lo - 1) (decOpt hi) rest (i + 1) else [])

/-- Is the character before offset `i` a word character? -/
def prevWord (s : List Char) (i : Nat) : Bool :=
  if i = 0 then false
  else
    match s.get? (i - 1) with
    | some c => isWordChar c
    | none => false

/-- Is the character at offset `i` a word character? -/
def curWord (s : List Char) (i : Nat) : Bool :=
  match s.get? i with
  | some c => isWordChar c
  | none => false

/-- All offsets at which a match of `r` starting at offset `i` of `s` can
end (a nondeterministic matcher; the script only ever uses match *start*
offsets and match existence, for which this is equivalent to Python's
backtracking engine). -/
def endsAt : RE → List Char → Nat → List Nat
  | .lit l, s, i => if litMatch l s i then [i + l.length] else []
  | .cls q lo hi, s, i => clsEnds q lo hi (s.drop i) i
  | .opt r, s, i => i :: endsAt r s i
  | .alt r₁ r₂, s, i => endsAt r₁ s i ++ endsAt r₂ s i
  | .seq r₁ r₂, s, i => (endsAt r₁ s i).flatMap (fun j => endsAt r₂ s j)
  | .wb, s, i => if prevWord s i ≠ curWord s i then [i] else []
  | .eol, s, i => if i = s.length || s.drop i = ['\n'] then [i] else []

/-- Does `r` match starting at offset `i`? -/
def matchesAt (r : RE) (s : List Char) (i : Nat) : Bool :=
  !(endsAt r s i).isEmpty

/-- `^` with `re.MULTILINE`: offset 0 or right after a newline. -/
def isLineStart (s : List Char) (i : Nat) : Bool :=
  i = 0 ||
    match s.get? (i - 1) with
    | some c => c = '\n'
    | none => false

/-- Scan offsets `i, i+1, ...` (at most `fuel` of them) for the first
line-start offset where `r` matches. -/
def searchFrom (r : RE) (s : List Char) : Nat → Nat → Option Nat
  | _, 0 => none
  | i, fuel + 1 =>
    if isLineStart s i && matchesAt r s i then some i
    else searchFrom r s (i + 1) fuel

/-- `re.search(pattern, s, re.MULTILINE | re.IGNORECASE).start()` for a
`^`-anchored pattern: earliest line-start offset with a match. -/
def searchStart (r : RE) (s : List Char) : Option Nat :=
  searchFrom r s 0 (s.length + 1)

/-- `#+` -/
def hashes : RE := .cls isHashChar 1 none

/-- `\s+` -/
def ws1 : RE := .cls isPySpace 1 none

/-- `\s*` -/
def ws0 : RE := .cls isPySpace 0 none

/-- `\d+` -/
def digits1 : RE := .cls isPyDigit 1 none

/-- `^#+\s+…` common heading prefix (the `^` anchor lives in `searchStart`). -/
def hdr (r : RE) : RE := .seq hashes (.seq ws1 r)

def mkLit (s : String) : RE := .lit s.toList

/-- `^#+\s+(Acknowledgments?)\b` -/
def ackPat1 : RE := hdr (.seq (mkLit "Acknowledgment") (.seq (.opt (mkLit "s")) .wb))

/-- `^#+\s+(Acknowledgements?)\b` -/
def ackPat2 : RE := hdr (.seq (mkLit "Acknowledgement") (.seq (.opt (mkLit "s")) .wb))

/-- `^#+\s+Author\s+(Contributions|contributions)` -/
def ackPat3 : RE :=
  hdr (.seq (mkLit "Author") (.seq ws1 (.alt (mkLit "Contributions") (mkLit "contributions"))))

/-- `^#+\s+Funding` -/
def ackPat4 : RE := hdr (mkLit "Funding")

/-- `^#+\s+Impact\s+(Statement|statement)` -/
def ackPat5 : RE :=
  hdr (.seq (mkLit "Impact") (.seq ws1 (.alt (mkLit "Statement") (mkLit "statement"))))

/-- `^#+\s+Broader\s+(Impact|impact)` -/
def ackPat6 : RE :=
  hdr (.seq (mkLit "Broader") (.seq ws1 (.alt (mkLit "Impact") (mkLit "impact"))))

/-- `^#+\s+Societal\s+(Impact|impact)` -/
def ackPat7 : RE :=
  hdr (.seq (mkLit "Societal") (.seq ws1 (.alt (mkLit "Impact") (mkLit "impact"))))

/-- `^#+\s+Ethical\s+(Considerations|considerations)` -/
def ackPat8 : RE :=
  hdr (.seq (mkLit "Ethical")
    (.seq ws1 (.alt (mkLit "Considerations") (mkLit "considerations"))))

/-- `ack_patterns`, in source order. -/
def ackPatterns : List RE :=
  [ackPat1, ackPat2, ackPat3, ackPat4, ackPat5, ackPat6, ackPat7, ackPat8]

/-- `^#+\s+(Appendix|Appendices|appendix|appendices)\b` -/
def appPat1 : RE :=
  hdr (.seq
    (.alt (.alt (mkLit "Appendix") (mkLit "Appendices"))
          (.alt (mkLit "appendix") (mkLit "appendices")))
    .wb)

/-- `^#+\s+(Supplementary|Supporting|supplementary|supporting)\s+(Material|Materials|Information|Data|material|materials|information|data)` -/
def appPat2 : RE :=
  hdr (.seq
    (.alt (.alt (mkLit "Supplementary") (mkLit "Supporting"))
          (.alt (mkLit "supplementary") (mkLit "supporting")))
    (.seq ws1
      (.alt
        (.alt (.alt (mkLit "Material") (mkLit "Materials"))
              (.alt (mkLit "Information") (mkLit "Data")))
        (.alt (.alt (mkLit "material") (mkLit "materials"))
              (.alt (mkLit "information") (mkLit "data"))))))

/-- `^#+\s+(Supplemental|supplemental)\s+` -/
def appPat3 : RE := hdr (.seq (.alt (mkLit "Supplemental") (mkLit "supplemental")) ws1)

/-- `^#+\s+SI\s+` -/
def appPat4 : RE := hdr (.seq (mkLit "SI") ws1)

/-- `^#+\s+S\d+\.\s+` -/
def appPat5 : RE := hdr (.seq (mkLit "S") (.seq digits1 (.seq (mkLit ".") ws1)))

/-- `^#+\s+A\s+` (generic appendix pattern, guarded in the scan). -/
def appPat6 : RE := hdr (.seq (mkLit "A") ws1)

/-- `^#+\s+A\.\s+` (generic appendix pattern, guarded in the scan). -/
def appPat7 : RE := hdr (.seq (mkLit "A") (.seq (mkLit ".") ws1))

/-- `appendix_patterns` in source order, each tagged with whether it is one
of the two generic patterns `^#+\s+A\s+` / `^#+\s+A\.\s+` (the source
compares the pattern string itself to those two literals). -/
def appendixPatternsTagged : List (RE × Bool) :=
  [(appPat1, false), (appPat2, false), (appPat3, false), (appPat4, false),
   (appPat5, false), (appPat6, true), (appPat7, true)]

def appendixPatterns : List RE := appendixPatternsTagged.map Prod.fst

/-- `^#{3,4}\s+Page\s+\d+\s*$` -/
def pageMarkerRE : RE :=
  .seq (.cls isHashChar 3 (some 4))
    (.seq ws1 (.seq (mkLit "Page") (.seq ws1 (.seq digits1 (.seq ws0 .eol)))))

/-- `re.match(page_marker_pattern, line, re.IGNORECASE)`: anchored at the
start of the (newline-free) split line. -/
def markerLine (line : List Char) : Bool :=
  matchesAt pageMarkerRE line 0

/-- One step of the acknowledgment loop: keep the match with the smaller
start offset (`match.start() < ack_match.start()`). -/
def bestStep (s : List Char) (acc : Option Nat) (pat : RE) : Option Nat :=
  match searchStart pat s with
  | none => acc
  | some v =>
    match acc with
    | none => some v
    | some b => if v < b then some v else acc

/-- The acknowledgment search loop (lines 70–77): earliest first-match
offset across all patterns of the category. -/
def bestStart (pats : List RE) (s : List Char) : Option Nat :=
  pats.foldl (bestStep s) none

/-- One step of the appendix loop (lines 82–94), including the guard on the
two generic patterns: a generic match is filtered only when an
acknowledgment start exists, and then only accepted when strictly after it. -/
def appStep (s : List Char) (ackStart : Option Nat) (acc : Option Nat) (pg : RE × Bool) :
    Option Nat :=
  match searchStart pg.1 s with
  | none => acc
  | some v =>
    if (match acc with | none => true | some b => v < b) then
      if pg.2 && ackStart.isSome then
        match ackStart with
        | some a => if v > a then some v else acc
        | none => acc
      else some v
    else acc

/-- The appendix search loop (lines 79–94). -/
def appendixScan (s : List Char) (ackStart : Option Nat) : Option Nat :=
  appendixPatternsTagged.foldl (appStep s ackStart) none

/-- Python `range(a, b, -1)`: `a, a-1, …, b+1` (empty when `a ≤ b`). -/
def rangeDown (a b : Nat) : List Nat :=
  (List.range (a - b)).map (fun t => a - t)

/-- Python `content.rfind(sub)`: start offset of the last occurrence of
`sub` in `s`, `none` when there is none (Python's `-1`). -/
def rfind (s sub : List Char) : Option Nat :=
  ((List.range (s.length + 1)).filter
    (fun i => (s.drop i).take sub.length = sub)).getLast?

/-- The page-marker backward scan loop (lines 103–109 / 117–123 / 139–144):
walk the index list, and at the first line matching the page-marker pattern
move the boundary to `rfind`'s offset for that line (keeping it unchanged
if `rfind` failed), then stop.  `none` models a Python `IndexError` (an
index outside `lines`), which in fact never happens. -/
def scanLoop (before : List Char) (lines : List (List Char)) (b : Nat) :
    List Nat → Option Nat
  | [] => some b
  | i :: rest =>
    match lines.get? i with
    | none => none
    | some line =>
      if markerLine line then some ((rfind before line).getD b)
      else scanLoop before lines b rest

/-- Page-marker absorption for a located boundary `b` (the `content[:b]`,
`split('\n')`, `range(len-1, max(0, len-5), -1)` loop).  In `Nat`,
`len - 5` already is Python's `max(0, len - 5)`. -/
def absorbPage (c : List Char) (b : Nat) : Option Nat :=
  let before := c.take b
  let lines := splitNl before
  scanLoop before lines b (rangeDown (lines.length - 1) (lines.length - 5))

/-- Absorption lifted to an optional boundary. -/
def optAbsorb (c : List Char) : Option Nat → Option (Option Nat)
  | none => some none
  | some b =>
    match absorbPage c b with
    | none => none
    | some r => some (some r)

/-- The locator before the ordering-conflict correction: category searches
(lines 70–94) followed by page-marker absorption for each located boundary
(lines 96–123). -/
def locatePre (c : List Char) : Option (Option Nat × Option Nat) :=
  match optAbsorb c (bestStart ackPatterns c) with
  | none => none
  | some ack1 =>
    match optAbsorb c (appendixScan c (bestStart ackPatterns c)) with
    | none => none
    | some app1 => some (ack1, app1)

/-- First pattern in list order with a match (the correction's rerun loop
breaks at the first matching pattern, lines 132–145). -/
def firstStart : List RE → List Char → Option Nat
  | [], _ => none
  | p :: rest, s =>
    match searchStart p s with
    | some v => some v
    | none => firstStart rest s

/-- The ordering-conflict correction (lines 125–146): when both boundaries
exist and the acknowledgment one is after the appendix one, rerun the
acknowledgment search on `content[:appendix_start]` taking the first
pattern in list order that matches, and reapply page-marker absorption
(against the full content prefix `content[:ack_start]`). -/
def correction (c : List Char) :
    Option Nat × Option Nat → Option (Option Nat × Option Nat)
  | (some a, some p) =>
    if a > p then
      match firstStart ackPatterns (c.take p) with
      | none => some (none, some p)
      | some a' =>
        match absorbPage c a' with
        | none => none
        | some a'' => some (some a'', some p)
    else some (some a, some p)
  | pr => some pr

/-- `find_section_boundaries` (lines 37–147). -/
def find_section_boundaries (c : List Char) : Option (Option Nat × Option Nat) :=
  match locatePre c with
  | none => none
  | some pr => correction c pr

/-- Python `str.strip()` (ASCII whitespace). -/
def pyStrip (s : List Char) : List Char :=
  ((s.dropWhile isPySpace).reverse.dropWhile isPySpace).reverse

/-- Does `cs` consist of `---` followed only by whitespace?  This is
exactly when Python's `re.search`-style scan of `---\s*$` (no `re.MULTILINE`,
so `$` is end-of-string or before a sole final newline) matches at this
offset: with `\s*` greedy the match then extends to the end of the string. -/
def sepTail (cs : List Char) : Bool :=
  cs.take 3 = ['-', '-', '-'] && (cs.drop 3).all isPySpace

/-- `re.sub(r'---\s*$', '', s)`: remove from the leftmost offset where
`---` is followed only by whitespace to the end (no-op when no such
offset exists). -/
def subTrailingSep (s : List Char) : List Char :=
  match (List.range (s.length + 1)).find? (fun p => sepTail (s.drop p)) with
  | some p => s.take p
  | none => s

/-- Per-segment cleanup (lines 209–213): `re.sub(r'---\s*$', '', x).strip()`. -/
def cleanupSeg (s : List Char) : List Char := pyStrip (subTrailingSep s)

/-- The first piece of `extract_title` (lines 18–20): first match of
`^# (.+?)$` with `re.MULTILINE`, i.e. the first line that starts with
`"# "` and has at least one further character; the group is the rest of
the line, then `.strip()`. -/
def titleFromHeader (c : List Char) : Option (List Char) :=
  ((splitNl c).find? (fun l => l.take 2 = ['#', ' '] && 2 < l.length)).map
    (fun l => pyStrip (l.drop 2))

/-- The second piece of `extract_title` (lines 23–25): first match of
`title={([^}]*)}` (case-sensitive, not line-anchored); the group is what
stands between the braces, then `.strip()`. -/
def titleFromBibtex (c : List Char) : Option (List Char) :=
  ((List.range (c.length + 1)).find? (fun i =>
      (c.drop i).take 7 = "title=\x7b".toList && (c.drop (i + 7)).contains '\x7d')).map
    (fun i => pyStrip ((c.drop (i + 7)).takeWhile (fun ch => ch ≠ '\x7d')))

/-- `extract_title` (lines 12–28). -/
def extract_title (c : List Char) : List Char :=
  match titleFromHeader c with
  | some t => t
  | none =>
    match titleFromBibtex c with
    | some t => t
    | none => "Untitled_Paper".toList

/-- Is `f"# {title}"` a replacement template Python's `re.sub` accepts?
Modelled conservatively: a backslash-free title is passed through verbatim
(faithful to Python); any backslash is treated as a failure.  Python in
fact raises `re.error` for the common backslash cases — a group reference
such as `\1` (the pattern `^# .*$` has no groups) or an unknown letter
escape — even when the pattern does not match, and accepts a few escape
sequences (`\\`, `\n`, …) that this model does not distinguish; no theorem
below depends on a backslash-carrying title except where Python likewise
raises. -/
def templOk : List Char → Bool
  | [] => true
  | '\\' :: _ => false
  | _ :: rest => templOk rest

/-- Replace the first line matching `^# .*$` by `"# " ++ title` (the
pattern cannot span lines, so the first match is in the first line that
starts with `"# "`). -/
def retitleLines : List (List Char) → List Char → List (List Char)
  | [], _ => []
  | l :: ls, title =>
    if l.take 2 = ['#', ' '] then ("# ".toList ++ title) :: ls
    else l :: retitleLines ls title

/-- Join split lines back with newlines (inverse of `splitNl`). -/
def joinNl : List (List Char) → List Char
  | [] => []
  | [l] => l
  | l :: ls => l ++ '\n' :: joinNl ls

/-- `re.sub(r'^# .*$', f"# {title}", s, count=1, flags=re.MULTILINE)`
(line 222).  `none` models the `re.error` Python raises when the extracted
title is an invalid replacement template. -/
def retitleOpt (s : List Char) (title : List Char) : Option (List Char) :=
  if templOk ("# ".toList ++ title) then some (joinNl (retitleLines (splitNl s) title))
  else none

/-- The raw slicing of lines 187–206: appendix slice first, then the
backmatter slice out of the remaining working document, with the defensive
`ack_start > appendix_start` branch left as a no-op. -/
def rawSlices (c : List Char) (ack app : Option Nat) :
    List Char × Option (List Char) × Option (List Char) :=
  match app with
  | some p =>
    match ack with
    | some a =>
      if a > p then (c.take p, none, some (c.drop p))
      else ((c.take p).take a, some ((c.take p).drop a), some (c.drop p))
    | none => (c.take p, none, some (c.drop p))
  | none =>
    match ack with
    | some a => (c.take a, some (c.drop a), none)
    | none => (c, none, none)

/-- `f"# {title} - Backmatter\n\n---\n\n"` -/
def backHeader (title : List Char) : List Char :=
  "# ".toList ++ title ++ " - Backmatter\n\n---\n\n".toList

/-- `f"# {title} - Appendix\n\n---\n\n"` -/
def appHeader (title : List Char) : List Char :=
  "# ".toList ++ title ++ " - Appendix\n\n---\n\n".toList

/-- A segment that is written only when truthy (Python `if x:` on an
optional string). -/
def emitted : Option (List Char) → Option (List Char)
  | none => none
  | some s => if s.isEmpty then none else some s

/-- Segment assembly (lines 187–222 and the conditional writes of lines
226–242): slice, clean up truthy segments, synthesize headings for truthy
backmatter/appendix, rewrite the main title.  The main segment is written
unconditionally; `none` only models the `re.error` of the title rewrite. -/
def assembleSegs (c : List Char) (ack app : Option Nat) (title : List Char) :
    Option (List Char × Option (List Char) × Option (List Char)) :=
  let raw := rawSlices c ack app
  let m1 := cleanupSeg raw.1
  let b1 := raw.2.1.map (fun s => if s.isEmpty then s else cleanupSeg s)
  let a1 := raw.2.2.map (fun s => if s.isEmpty then s else cleanupSeg s)
  let b2 := b1.map (fun s => if s.isEmpty then s else backHeader title ++ s)
  let a2 := a1.map (fun s => if s.isEmpty then s else appHeader title ++ s)
  (retitleOpt m1 title).map (fun m2 => (m2, emitted b2, emitted a2))

/-- The pure content pipeline of `split_paper` (lines 164–242, I/O aside):
extract the title, locate boundaries, assemble the segments. -/
def split_paper_segments (c : List Char) :
    Option (List Char × Option (List Char) × Option (List Char)) :=
  match find_section_boundaries c with
  | none => none
  | some pr => assembleSegs c pr.1 pr.2 (extract_title c)

/-- Does every successful match of `r` consume at least one character?
(All heading patterns do: they start with `#+`.) -/
def consumes : RE → Bool
  | .lit l => !l.isEmpty
  | .cls _ lo _ => lo ≠ 0
  | .opt _ => false
  | .alt r₁ r₂ => consumes r₁ && consumes r₂
  | .seq r₁ r₂ => consumes r₁ || consumes r₂
  | .wb => false
  | .eol => false

/-- Is `r` free of the `$` anchor?  (All backmatter/appendix patterns are;
only the page-marker pattern uses `$`.) -/
def noEol : RE → Bool
  | .lit _ => true
  | .cls _ _ _ => true
  | .opt r => noEol r
  | .alt r₁ r₂ => noEol r₁ && noEol r₂
  | .seq r₁ r₂ => noEol r₁ && noEol r₂
  | .wb => true
  | .eol => false

/-- Strip trailing ASCII whitespace. -/
def stripTrailWs (s : List Char) : List Char :=
  (s.reverse.dropWhile isPySpace).reverse

/-- Modelled from the spec's words, for comparison with the source's
cleanup: repeatedly remove a trailing `---` separator, so that the whole
"trailing run of `---` separator characters and surrounding whitespace" is
trimmed (the fuel is an upper bound on the number of removals). -/
def specTrimRunAux : Nat → List Char → List Char
  | 0, s => s
  | f + 1, s =>
    let t := stripTrailWs s
    if 3 ≤ t.length && t.drop (t.length - 3) = ['-', '-', '-'] then
      specTrimRunAux f (t.take (t.length - 3))
    else t

/-- Modelled from the spec's words (§4.2): the segment "has its trailing
run of `---` separator characters and surrounding whitespace trimmed". -/
def specTrimSepRun (s : List Char) : List Char :=
  pyStrip (specTrimRunAux s.length s)

/-! ### Basic facts about the scan helpers -/

theorem mem_rangeDown {a b x : Nat} (h : x ∈ rangeDown a b) : b < x ∧ x ≤ a := by
  unfold rangeDown at h
  rcases List.mem_map.mp h with ⟨t, ht, rfl⟩
  have := List.mem_range.mp ht
  omega

theorem rangeDown_cons {a b : Nat} (h : b < a) : rangeDown a b = a :: rangeDown (a - 1) b := by
  unfold rangeDown
  have h1 : a - b = (a - 1 - b) + 1 := by omega
  rw [h1, List.range_succ_eq_map, List.map_cons, List.map_map]
  refine congrArg₂ _ (by omega) (List.map_congr_left ?_)
  intro t _
  simp only [Function.comp_apply]
  omega

theorem rangeDown_append {a m b : Nat} (h1 : b ≤ m) (h2 : m ≤ a) :
    rangeDown a b = rangeDown a m ++ rangeDown m b := by
  induction a with
  | zero =>
    have hm : m = 0 := by omega
    have hb : b = 0 := by omega
    subst hm; subst hb; rfl
  | succ n ih =>
    by_cases hma : m = n + 1
    · subst hma
      simp [rangeDown]
    · have hm : m ≤ n := by omega
      rw [rangeDown_cons (by omega), rangeDown_cons (show m < n + 1 by omega),
        Nat.add_sub_cancel, ih hm, List.cons_append]

theorem splitNl_ne_nil (s : List Char) : splitNl s ≠ [] := by
  induction s with
  | nil => simp [splitNl]
  | cons c cs ih =>
    unfold splitNl
    by_cases h : c = '\n'
    · simp [h]
    · simp only [h, if_false]
      cases hs : splitNl cs with
      | nil => simp
      | cons l ls => simp

theorem scanLoop_isSome {before : List Char} {lines : List (List Char)} {b : Nat}
    {idxs : List Nat} (h : ∀ i ∈ idxs, i < lines.length) :
    (scanLoop before lines b idxs).isSome = true := by
  induction idxs with
  | nil => rfl
  | cons i rest ih =>
    have hi : i < lines.length := h i (by simp)
    unfold scanLoop
    cases hg : lines.get? i with
    | none => exact absurd (List.get?_eq_none.mp hg) (by omega)
    | some line =>
      by_cases hm : markerLine line = true
      · simp [hm]
      · simp only [hm, if_false]
        exact ih (fun j hj => h j (by simp [hj]))

theorem rfind_le {s sub : List Char} {p : Nat} (h : rfind s sub = some p) : p ≤ s.length := by
  unfold rfind at h
  have hmem : p ∈ (List.range (s.length + 1)).filter
      (fun i => decide ((s.drop i).take sub.length = sub)) := by
    cases hl : (List.range (s.length + 1)).filter
        (fun i => decide ((s.drop i).take sub.length = sub)) with
    | nil => rw [hl] at h; simp at h
    | cons x xs =>
      rw [hl] at h
      have := List.getLast?_eq_getLast (x :: xs) (by simp)
      rw [this] at h
      have hmem := List.getLast_mem (l := x :: xs) (by simp)
      rw [Option.some_inj.mp h] at hmem
      exact hmem
  have := List.mem_range.mp (List.mem_filter.mp hmem).1
  omega

theorem rfind_spec {s sub : List Char} {p : Nat} (h : rfind s sub = some p) :
    (s.drop p).take sub.length = sub := by
  unfold rfind at h
  have hmem : p ∈ (List.range (s.length + 1)).filter
      (fun i => decide ((s.drop i).take sub.length = sub)) := by
    cases hl : (List.range (s.length + 1)).filter
        (fun i => decide ((s.drop i).take sub.length = sub)) with
    | nil => rw [hl] at h; simp at h
    | cons x xs =>
      rw [hl] at h
      have := List.getLast?_eq_getLast (x :: xs) (by simp)
      rw [this] at h
      have hmem := List.getLast_mem (l := x :: xs) (by simp)
      rw [Option.some_inj.mp h] at hmem
      exact hmem
  have := (List.mem_filter.mp hmem).2
  exact of_decide_eq_true this

theorem scanLoop_le {before : List Char} {lines : List (List Char)} {b r : Nat}
    {idxs : List Nat} (hb : before.length ≤ b)
    (h : scanLoop before lines b idxs = some r) : r ≤ b := by
  induction idxs with
  | nil => simp [scanLoop] at h; omega
  | cons i rest ih =>
    cases hg : lines.get? i with
    | none => simp only [scanLoop, hg] at h; exact absurd h (by simp)
    | some line =>
      simp only [scanLoop, hg] at h
      by_cases hm : markerLine line = true
      · rw [if_pos hm] at h
        cases hr : rfind before line with
        | none => rw [hr] at h; simp at h; omega
        | some p =>
          rw [hr] at h
          simp at h
          have := rfind_le hr
          omega
      · rw [if_neg hm] at h
        exact ih h

theorem absorbPage_isSome (c : List Char) (b : Nat) : (absorbPage c b).isSome = true := by
  unfold absorbPage
  apply scanLoop_isSome
  intro i hi
  have h1 := (mem_rangeDown hi).2
  have h2 : (splitNl (c.take b)).length ≠ 0 :=
    fun h => splitNl_ne_nil _ (List.length_eq_zero.mp h)
  omega

theorem absorbPage_le {c : List Char} {b r : Nat} (h : absorbPage c b = some r) : r ≤ b := by
  unfold absorbPage at h
  exact scanLoop_le (by simp) h

/-! ### Bounds on the matcher -/

theorem get?_some_lt {s : List Char} {i : Nat} {d : Char} (h : s.get? i = some d) :
    i < s.length := by
  by_contra hlt
  rw [List.get?_eq_none.mpr (by omega)] at h
  exact absurd h (by simp)

theorem clsEnds_mem {q : Char → Bool} {lo : Nat} {hi : Option Nat} {t : List Char}
    {i j : Nat} (h : j ∈ clsEnds q lo hi t i) :
    i ≤ j ∧ j ≤ i + t.length ∧ (lo ≠ 0 → i < j) := by
  induction t generalizing lo hi i with
  | nil =>
    unfold clsEnds at h
    by_cases hlo : lo = 0
    · rw [if_pos hlo] at h
      simp at h
      exact ⟨by omega, by simp; omega, fun hn => absurd hlo hn⟩
    · rw [if_neg hlo] at h
      exact absurd h (by simp)
  | cons c rest ih =>
    unfold clsEnds at h
    rcases List.mem_append.mp h with h1 | h2
    · by_cases hlo : lo = 0
      · rw [if_pos hlo] at h1
        simp at h1
        exact ⟨by omega, by simp; omega, fun hn => absurd hlo hn⟩
      · rw [if_neg hlo] at h1
        exact absurd h1 (by simp)
    · by_cases hq : (hiPos hi && q c) = true
      · rw [if_pos hq] at h2
        have := ih h2
        refine ⟨by omega, by simp; omega, fun _ => by omega⟩
      · rw [if_neg hq] at h2
        exact absurd h2 (by simp)

theorem clsEnds_head {q : Char → Bool} {lo : Nat} {hi : Option Nat} {t : List Char}
    {i j : Nat} (hlo : lo ≠ 0) (h : j ∈ clsEnds q lo hi t i) :
    ∃ ch t', t = ch :: t' ∧ q ch = true := by
  cases t with
  | nil =>
    unfold clsEnds at h
    rw [if_neg hlo] at h
    exact absurd h (by simp)
  | cons c rest =>
    unfold clsEnds at h
    rcases List.mem_append.mp h with h1 | h2
    · rw [if_neg hlo] at h1
      exact absurd h1 (by simp)
    · by_cases hq : (hiPos hi && q c) = true
      · exact ⟨c, rest, rfl, (Bool.and_eq_true_iff.mp hq).2⟩
      · rw [if_neg hq] at h2
        exact absurd h2 (by simp)

theorem litMatch_le {l : List Char} {s : List Char} {i : Nat}
    (h : litMatch l s i = true) (hne : l ≠ []) : i + l.length ≤ s.length := by
  induction l generalizing i with
  | nil => exact absurd rfl hne
  | cons c cs ih =>
    unfold litMatch at h
    cases hg : s.get? i with
    | none => rw [hg] at h; exact absurd h (by simp)
    | some d =>
      rw [hg] at h
      have h2 := (Bool.and_eq_true_iff.mp h).2
      have hilt := get?_some_lt hg
      cases cs with
      | nil => simp; omega
      | cons c' cs' =>
        have := ih h2 (by simp)
        simp at this ⊢
        omega

theorem endsAt_ge (r : RE) {s : List Char} {i j : Nat} (h : j ∈ endsAt r s i) : i ≤ j := by
  induction r generalizing i j with
  | lit l =>
    unfold endsAt at h
    by_cases hm : litMatch l s i = true
    · rw [if_pos hm] at h; simp at h; omega
    · rw [if_neg hm] at h; exact absurd h (by simp)
  | cls q lo hi => exact (clsEnds_mem h).1
  | opt r ih =>
    unfold endsAt at h
    rcases List.mem_cons.mp h with h1 | h2
    · omega
    · exact ih h2
  | alt r₁ r₂ ih₁ ih₂ =>
    unfold endsAt at h
    rcases List.mem_append.mp h with h1 | h2
    · exact ih₁ h1
    · exact ih₂ h2
  | seq r₁ r₂ ih₁ ih₂ =>
    unfold endsAt at h
    rcases List.mem_flatMap.mp h with ⟨m, hm, hj⟩
    exact le_trans (ih₁ hm) (ih₂ hj)
  | wb =>
    unfold endsAt at h
    by_cases hc : prevWord s i ≠ curWord s i
    · rw [if_pos hc] at h; simp at h; omega
    · rw [if_neg hc] at h; exact absurd h (by simp)
  | eol =>
    unfold endsAt at h
    by_cases hc : i = s.length ∨ s.drop i = ['\n']
    · rw [if_pos (by simpa using hc)] at h; simp at h; omega
    · rw [if_neg (by simpa using hc)] at h; exact absurd h (by simp)

theorem endsAt_le_len (r : RE) {s : List Char} {i j : Nat} (hi : i ≤ s.length)
    (h : j ∈ endsAt r s i) : j ≤ s.length := by
  induction r generalizing i j with
  | lit l =>
    unfold endsAt at h
    by_cases hm : litMatch l s i = true
    · rw [if_pos hm] at h
      simp at h
      subst h
      cases l with
      | nil => simpa using hi
      | cons c cs => exact litMatch_le hm (by simp)
    · rw [if_neg hm] at h; exact absurd h (by simp)
  | cls q lo hi' =>
    have := (clsEnds_mem h).2.1
    rw [List.length_drop] at this
    omega
  | opt r ih =>
    unfold endsAt at h
    rcases List.mem_cons.mp h with h1 | h2
    · omega
    · exact ih hi h2
  | alt r₁ r₂ ih₁ ih₂ =>
    unfold endsAt at h
    rcases List.mem_append.mp h with h1 | h2
    · exact ih₁ hi h1
    · exact ih₂ hi h2
  | seq r₁ r₂ ih₁ ih₂ =>
    unfold endsAt at h
    rcases List.mem_flatMap.mp h with ⟨m, hm, hj⟩
    exact ih₂ (ih₁ hi hm) hj
  | wb =>
    unfold endsAt at h
    by_cases hc : prevWord s i ≠ curWord s i
    · rw [if_pos hc] at h; simp at h; omega
    · rw [if_neg hc] at h; exact absurd h (by simp)
  | eol =>
    unfold endsAt at h
    by_cases hc : i = s.length ∨ s.drop i = ['\n']
    · rw [if_pos (by simpa using hc)] at h; simp at h; omega
    · rw [if_neg (by simpa using hc)] at h; exact absurd h (by simp)

theorem endsAt_consumes (r : RE) {s : List Char} {i j : Nat} (hc : consumes r = true)
    (h : j ∈ endsAt r s i) : i < j := by
  induction r generalizing i j with
  | lit l =>
    unfold endsAt at h
    by_cases hm : litMatch l s i = true
    · rw [if_pos hm] at h
      simp at h
      subst h
      unfold consumes at hc
      cases l with
      | nil => simp at hc
      | cons c cs => simp
    · rw [if_neg hm] at h; exact absurd h (by simp)
  | cls q lo hi =>
    refine (clsEnds_mem h).2.2 ?_
    unfold consumes at hc
    simpa using hc
  | opt r ih => simp [consumes] at hc
  | alt r₁ r₂ ih₁ ih₂ =>
    unfold endsAt at h
    unfold consumes at hc
    rcases List.mem_append.mp h with h1 | h2
    · exact ih₁ (Bool.and_eq_true_iff.mp hc).1 h1
    · exact ih₂ (Bool.and_eq_true_iff.mp hc).2 h2
  | seq r₁ r₂ ih₁ ih₂ =>
    unfold endsAt at h
    unfold consumes at hc
    rcases List.mem_flatMap.mp h with ⟨m, hm, hj⟩
    rcases Bool.or_eq_true_iff.mp hc with hc1 | hc2
    · exact lt_of_lt_of_le (ih₁ hc1 hm) (endsAt_ge r₂ hj)
    · exact lt_of_le_of_lt (endsAt_ge r₁ hm) (ih₂ hc2 hj)
  | wb => simp [consumes] at hc
  | eol => simp [consumes] at hc

theorem endsAt_hdr_head {r : RE} {s : List Char} {i j : Nat}
    (h : j ∈ endsAt (hdr r) s i) : ∃ ch, s.get? i = some ch ∧ isHashChar ch = true := by
  unfold hdr at h
  unfold endsAt at h
  rcases List.mem_flatMap.mp h with ⟨m, hm, _⟩
  unfold hashes at hm
  unfold endsAt at hm
  rcases clsEnds_head (by simp) hm with ⟨ch, t', ht, hq⟩
  refine ⟨ch, ?_, hq⟩
  have : (s.drop i).get? 0 = some ch := by rw [ht]; rfl
  rw [List.get?_drop] at this
  simpa using this

theorem matchesAt_exists {r : RE} {s : List Char} {i : Nat}
    (h : matchesAt r s i = true) : ∃ j, j ∈ endsAt r s i := by
  unfold matchesAt at h
  cases he : endsAt r s i with
  | nil => rw [he] at h; simp at h
  | cons j js => exact ⟨j, by simp⟩

theorem matchesAt_of_mem {r : RE} {s : List Char} {i j : Nat}
    (h : j ∈ endsAt r s i) : matchesAt r s i = true := by
  unfold matchesAt
  cases he : endsAt r s i with
  | nil => rw [he] at h; exact absurd h (by simp)
  | cons j' js => simp

/-! ### The first-match search -/

theorem searchFrom_spec {r : RE} {s : List Char} {i f j : Nat}
    (h : searchFrom r s i f = some j) :
    i ≤ j ∧ j < i + f ∧ (isLineStart s j && matchesAt r s j) = true := by
  induction f generalizing i with
  | zero => simp [searchFrom] at h
  | succ f ih =>
    unfold searchFrom at h
    by_cases hg : (isLineStart s i && matchesAt r s i) = true
    · rw [if_pos hg] at h
      simp at h
      subst h
      exact ⟨le_refl i, by omega, hg⟩
    · rw [if_neg hg] at h
      have := ih h
      exact ⟨by omega, by omega, this.2.2⟩

theorem searchFrom_le_of {r : RE} {s : List Char} {i f m : Nat}
    (hg : (isLineStart s m && matchesAt r s m) = true) (him : i ≤ m) (hm : m < i + f) :
    ∃ j, searchFrom r s i f = some j ∧ j ≤ m := by
  induction f generalizing i with
  | zero => omega
  | succ f ih =>
    unfold searchFrom
    by_cases hgi : (isLineStart s i && matchesAt r s i) = true
    · rw [if_pos hgi]
      exact ⟨i, rfl, him⟩
    · rw [if_neg hgi]
      have hne : i ≠ m := fun he => hgi (he ▸ hg)
      exact ih (by omega) (by omega)

theorem searchStart_spec {r : RE} {s : List Char} {j : Nat}
    (h : searchStart r s = some j) :
    j ≤ s.length ∧ isLineStart s j = true ∧ matchesAt r s j = true := by
  have := searchFrom_spec h
  exact ⟨by omega, (Bool.and_eq_true_iff.mp this.2.2).1, (Bool.and_eq_true_iff.mp this.2.2).2⟩

theorem searchStart_le_of {r : RE} {s : List Char} {m : Nat}
    (h1 : isLineStart s m = true) (h2 : matchesAt r s m = true) (hm : m ≤ s.length) :
    ∃ j, searchStart r s = some j ∧ j ≤ m := by
  exact searchFrom_le_of (by simp [h1, h2]) (by omega) (by omega)

theorem searchStart_lt_len {r : RE} {s : List Char} {j : Nat}
    (hc : consumes r = true) (h : searchStart r s = some j) : j < s.length := by
  rcases searchStart_spec h with ⟨hlen, _, hmatch⟩
  rcases matchesAt_exists hmatch with ⟨jend, hjend⟩
  have h1 := endsAt_consumes r hc hjend
  have h2 := endsAt_le_len r hlen hjend
  omega

theorem searchStart_head {r₀ : RE} {s : List Char} {j : Nat}
    (h : searchStart (hdr r₀) s = some j) :
    ∃ ch, s.get? j = some ch ∧ isHashChar ch = true := by
  rcases searchStart_spec h with ⟨_, _, hmatch⟩
  rcases matchesAt_exists hmatch with ⟨jend, hjend⟩
  exact endsAt_hdr_head hjend

/-! ### The category scan loops -/

theorem bestStep_cases (s : List Char) (acc : Option Nat) (pat : RE) :
    bestStep s acc pat = acc ∨
      ∃ w, searchStart pat s = some w ∧ bestStep s acc pat = some w := by
  unfold bestStep
  cases hs : searchStart pat s with
  | none => exact Or.inl rfl
  | some v =>
    cases acc with
    | none => exact Or.inr ⟨v, rfl, rfl⟩
    | some b =>
      by_cases hv : v < b
      · exact Or.inr ⟨v, rfl, by simp [hv]⟩
      · exact Or.inl (by simp [hv])

theorem bestStep_mono {s : List Char} {a w : Nat} {pat : RE}
    (h : bestStep s (some a) pat = some w) : w ≤ a := by
  unfold bestStep at h
  cases hs : searchStart pat s with
  | none =>
    rw [hs] at h
    simp at h
    omega
  | some v =>
    rw [hs] at h
    by_cases hv : v < a
    · simp [hv] at h
      omega
    · simp [hv] at h
      omega

theorem bestFold_mono {s : List Char} (pats : List RE) {a b : Nat}
    (h : pats.foldl (bestStep s) (some a) = some b) : b ≤ a := by
  induction pats generalizing a with
  | nil => simp at h; omega
  | cons p rest ih =>
    rw [List.foldl_cons] at h
    rcases bestStep_cases s (some a) p with hc | ⟨w, _, hc⟩
    · rw [hc] at h
      exact ih h
    · rw [hc] at h
      exact le_trans (ih h) (bestStep_mono hc)

theorem bestFold_isSome {s : List Char} (pats : List RE) (a : Nat) :
    ∃ b, pats.foldl (bestStep s) (some a) = some b := by
  induction pats generalizing a with
  | nil => exact ⟨a, rfl⟩
  | cons p rest ih =>
    rw [List.foldl_cons]
    rcases bestStep_cases s (some a) p with hc | ⟨w, _, hc⟩
    · rw [hc]; exact ih a
    · rw [hc]; exact ih w

theorem bestFold_le {s : List Char} (pats : List RE) (acc : Option Nat) {pat : RE} {v : Nat}
    (hmem : pat ∈ pats) (hv : searchStart pat s = some v) :
    ∃ b, pats.foldl (bestStep s) acc = some b ∧ b ≤ v := by
  induction pats generalizing acc with
  | nil => exact absurd hmem (by simp)
  | cons p rest ih =>
    rw [List.foldl_cons]
    rcases List.mem_cons.mp hmem with heq | hmem'
    · subst heq
      have hstep : ∃ a, bestStep s acc pat = some a ∧ a ≤ v := by
        unfold bestStep
        rw [hv]
        cases acc with
        | none => exact ⟨v, rfl, le_refl v⟩
        | some a =>
          by_cases hva : v < a
          · exact ⟨v, by simp [hva], le_refl v⟩
          · exact ⟨a, by simp [hva], by omega⟩
      rcases hstep with ⟨a, hsa, hav⟩
      rw [hsa]
      rcases bestFold_isSome rest a with ⟨b, hb⟩
      exact ⟨b, hb, le_trans (bestFold_mono rest hb) hav⟩
    · exact ih (bestStep s acc p) hmem'

theorem bestStart_le {s : List Char} {pats : List RE} {pat : RE} {v : Nat}
    (hmem : pat ∈ pats) (hv : searchStart pat s = some v) :
    ∃ b, bestStart pats s = some b ∧ b ≤ v :=
  bestFold_le pats none hmem hv

theorem bestStart_mem {s : List Char} {pats : List RE} {v : Nat}
    (h : bestStart pats s = some v) : ∃ pat ∈ pats, searchStart pat s = some v := by
  unfold bestStart at h
  suffices haux : ∀ (l : List RE) (acc : Option Nat), l.foldl (bestStep s) acc = some v →
      acc = some v ∨ ∃ pat ∈ l, searchStart pat s = some v by
    rcases haux pats none h with h1 | h2
    · exact absurd h1 (by simp)
    · exact h2
  intro l
  induction l with
  | nil => intro acc h; exact Or.inl h
  | cons p rest ih =>
    intro acc h
    rw [List.foldl_cons] at h
    rcases ih (bestStep s acc p) h with h1 | h2
    · rcases bestStep_cases s acc p with hc | ⟨w, hw, hc⟩
      · exact Or.inl (hc ▸ h1)
      · rw [hc] at h1
        exact Or.inr ⟨p, by simp, by rw [hw, h1]⟩
    · rcases h2 with ⟨pat, hp, hv⟩
      exact Or.inr ⟨pat, by simp [hp], hv⟩

theorem bestStart_none {s : List Char} {pats : List RE}
    (h : ∀ pat ∈ pats, searchStart pat s = none) : bestStart pats s = none := by
  unfold bestStart
  induction pats with
  | nil => rfl
  | cons p rest ih =>
    rw [List.foldl_cons]
    unfold bestStep
    rw [h p (by simp)]
    exact ih (fun pat hp => h pat (by simp [hp]))

theorem appStep_cases (s : List Char) (ax acc : Option Nat) (pg : RE × Bool) :
    appStep s ax acc pg = acc ∨
      ∃ w, searchStart pg.1 s = some w ∧ appStep s ax acc pg = some w := by
  unfold appStep
  cases hs : searchStart pg.1 s with
  | none => exact Or.inl rfl
  | some v =>
    dsimp only
    by_cases hcond : (match acc with | none => true | some b => decide (v < b)) = true
    · rw [if_pos hcond]
      by_cases hg : (pg.2 && ax.isSome) = true
      · rw [if_pos hg]
        cases ax with
        | none => exact Or.inl rfl
        | some a =>
          by_cases hva : v > a
          · exact Or.inr ⟨v, rfl, by simp [hva]⟩
          · exact Or.inl (by simp [hva])
      · rw [if_neg hg]
        exact Or.inr ⟨v, rfl, rfl⟩
    · rw [if_neg hcond]
      exact Or.inl rfl

theorem appendixScan_mem {s : List Char} {ax : Option Nat} {v : Nat}
    (h : appendixScan s ax = some v) :
    ∃ pg ∈ appendixPatternsTagged, searchStart pg.1 s = some v := by
  unfold appendixScan at h
  suffices haux : ∀ (l : List (RE × Bool)) (acc : Option Nat),
      l.foldl (appStep s ax) acc = some v →
      acc = some v ∨ ∃ pg ∈ l, searchStart pg.1 s = some v by
    rcases haux appendixPatternsTagged none h with h1 | h2
    · exact absurd h1 (by simp)
    · exact h2
  intro l
  induction l with
  | nil => intro acc h; exact Or.inl h
  | cons p rest ih =>
    intro acc h
    rw [List.foldl_cons] at h
    rcases ih (appStep s ax acc p) h with h1 | h2
    · rcases appStep_cases s ax acc p with hc | ⟨w, hw, hc⟩
      · exact Or.inl (hc ▸ h1)
      · rw [hc] at h1
        exact Or.inr ⟨p, by simp, by rw [hw, h1]⟩
    · rcases h2 with ⟨pg, hp, hv⟩
      exact Or.inr ⟨pg, by simp [hp], hv⟩

theorem appendixScan_none {s : List Char} {ax : Option Nat}
    (h : ∀ pg ∈ appendixPatternsTagged, searchStart pg.1 s = none) :
    appendixScan s ax = none := by
  unfold appendixScan
  suffices haux : ∀ (l : List (RE × Bool)), (∀ pg ∈ l, searchStart pg.1 s = none) →
      l.foldl (appStep s ax) none = none by
    exact haux appendixPatternsTagged h
  intro l
  induction l with
  | nil => intro _; rfl
  | cons p rest ih =>
    intro hall
    rw [List.foldl_cons]
    have hstep : appStep s ax none p = none := by
      unfold appStep
      rw [hall p (by simp)]
    rw [hstep]
    exact ih (fun pg hp => hall pg (by simp [hp]))

theorem appStep_none_ack (s : List Char) (acc : Option Nat) (pg : RE × Bool) :
    appStep s none acc pg = bestStep s acc pg.1 := by
  unfold appStep bestStep
  cases hs : searchStart pg.1 s with
  | none => rfl
  | some v =>
    cases acc with
    | none => simp
    | some b =>
      by_cases hv : v < b
      · simp [hv]
      · simp [hv]

/-- C1 (amended): when no backmatter candidate exists, the guard on the two
generic `A `/`A. ` patterns is inactive and the appendix scan coincides with
the plain earliest-offset category search over all seven patterns — so a
lone `A `-style heading IS reported as the appendix boundary. -/
theorem appendixScan_no_backmatter (s : List Char) :
    appendixScan s none = bestStart appendixPatterns s := by
  unfold appendixScan bestStart appendixPatterns
  suffices haux : ∀ (l : List (RE × Bool)) (acc : Option Nat),
      l.foldl (appStep s none) acc = (l.map Prod.fst).foldl (bestStep s) acc by
    exact haux appendixPatternsTagged none
  intro l
  induction l with
  | nil => intro acc; rfl
  | cons p rest ih =>
    intro acc
    rw [List.foldl_cons, List.map_cons, List.foldl_cons, appStep_none_ack, ih]

theorem firstStart_mem {s : List Char} {pats : List RE} {v : Nat}
    (h : firstStart pats s = some v) : ∃ pat ∈ pats, searchStart pat s = some v := by
  induction pats with
  | nil => simp [firstStart] at h
  | cons p rest ih =>
    unfold firstStart at h
    cases hs : searchStart p s with
    | none =>
      rw [hs] at h
      rcases ih h with ⟨pat, hp, hv⟩
      exact ⟨pat, by simp [hp], hv⟩
    | some w =>
      rw [hs] at h
      simp at h
      exact ⟨p, by simp, by rw [hs, h]⟩

theorem firstStart_none {s : List Char} {pats : List RE}
    (h : ∀ pat ∈ pats, searchStart pat s = none) : firstStart pats s = none := by
  induction pats with
  | nil => rfl
  | cons p rest ih =>
    unfold firstStart
    rw [h p (by simp)]
    exact ih (fun pat hp => h pat (by simp [hp]))

/-! ### Decomposing the locator -/

theorem optAbsorb_some_elim {c : List Char} {b : Nat} {x : Option Nat}
    (h : optAbsorb c (some b) = some x) : ∃ r, absorbPage c b = some r ∧ x = some r := by
  unfold optAbsorb at h
  dsimp only at h
  cases hr : absorbPage c b with
  | none => rw [hr] at h; simp at h
  | some r =>
    rw [hr] at h
    simp at h
    exact ⟨r, rfl, by rw [h]⟩

theorem locatePre_elim {c : List Char} {oa op : Option Nat}
    (h : locatePre c = some (oa, op)) :
    optAbsorb c (bestStart ackPatterns c) = some oa ∧
      optAbsorb c (appendixScan c (bestStart ackPatterns c)) = some op := by
  unfold locatePre at h
  cases h1 : optAbsorb c (bestStart ackPatterns c) with
  | none => rw [h1] at h; simp at h
  | some x =>
    rw [h1] at h
    cases h2 : optAbsorb c (appendixScan c (bestStart ackPatterns c)) with
    | none => rw [h2] at h; simp at h
    | some y =>
      rw [h2] at h
      simp at h
      exact ⟨by rw [h.1], by rw [h.2]⟩

theorem all_consumes_ack : ∀ pat ∈ ackPatterns, consumes pat = true := by
  intro pat hmem
  have hall : ackPatterns.all consumes = true := by decide
  exact List.all_eq_true.mp hall pat hmem

theorem all_consumes_app : ∀ pg ∈ appendixPatternsTagged, consumes pg.1 = true := by
  intro pg hmem
  have hall : appendixPatternsTagged.all (fun pg => consumes pg.1) = true := by decide
  exact List.all_eq_true.mp hall pg hmem

/-- The raw (pre-absorption) backmatter candidate is an in-range match
start. -/
theorem bestStart_ack_lt {c : List Char} {a0 : Nat}
    (h : bestStart ackPatterns c = some a0) : a0 < c.length := by
  rcases bestStart_mem h with ⟨pat, hmem, hv⟩
  exact searchStart_lt_len (all_consumes_ack pat hmem) hv

/-- The raw (pre-absorption) appendix candidate is an in-range match
start. -/
theorem appendixScan_lt {c : List Char} {ax : Option Nat} {p0 : Nat}
    (h : appendixScan c ax = some p0) : p0 < c.length := by
  rcases appendixScan_mem h with ⟨pg, hmem, hv⟩
  exact searchStart_lt_len (all_consumes_app pg hmem) hv

theorem locatePre_ack_lt {c : List Char} {oa op : Option Nat}
    (h : locatePre c = some (oa, op)) : ∀ a ∈ oa, a < c.length := by
  intro a ha
  rcases locatePre_elim h with ⟨h1, _⟩
  cases hb : bestStart ackPatterns c with
  | none =>
    rw [hb] at h1
    unfold optAbsorb at h1
    simp at h1
    rw [← h1] at ha
    simp at ha
  | some a0 =>
    rw [hb] at h1
    rcases optAbsorb_some_elim h1 with ⟨r, hr, hx⟩
    rw [hx] at ha
    simp at ha
    have := absorbPage_le hr
    have := bestStart_ack_lt hb
    omega

theorem locatePre_app_lt {c : List Char} {oa op : Option Nat}
    (h : locatePre c = some (oa, op)) : ∀ p ∈ op, p < c.length := by
  intro p hp
  rcases locatePre_elim h with ⟨_, h2⟩
  cases hb : appendixScan c (bestStart ackPatterns c) with
  | none =>
    rw [hb] at h2
    unfold optAbsorb at h2
    simp at h2
    rw [← h2] at hp
    simp at hp
  | some p0 =>
    rw [hb] at h2
    rcases optAbsorb_some_elim h2 with ⟨r, hr, hx⟩
    rw [hx] at hp
    simp at hp
    have := absorbPage_le hr
    have := appendixScan_lt hb
    omega

/-- The corrected backmatter boundary, when produced by the conflict
branch, is strictly before the appendix boundary. -/
theorem correction_rerun_lt {c : List Char} {p a' : Nat}
    (h : firstStart ackPatterns (c.take p) = some a') : a' < p := by
  rcases firstStart_mem h with ⟨pat, hmem, hv⟩
  have := searchStart_lt_len (all_consumes_ack pat hmem) hv
  rw [List.length_take] at this
  omega

theorem correction_rerun_lt_len {c : List Char} {p a' : Nat}
    (h : firstStart ackPatterns (c.take p) = some a') : a' < c.length := by
  rcases firstStart_mem h with ⟨pat, hmem, hv⟩
  have := searchStart_lt_len (all_consumes_ack pat hmem) hv
  rw [List.length_take] at this
  omega

/-- C2 (amended): boundaries returned by `find_section_boundaries` are
in-range offsets and, when both are present, the backmatter one is at most
(not necessarily strictly before) the appendix one. -/
theorem c2_amended (c : List Char) (ack app : Option Nat)
    (h : find_section_boundaries c = some (ack, app)) :
    (∀ a ∈ ack, a < c.length) ∧ (∀ p ∈ app, p < c.length) ∧
      (∀ a ∈ ack, ∀ p ∈ app, a ≤ p) := by
  unfold find_section_boundaries at h
  cases hpre : locatePre c with
  | none => rw [hpre] at h; simp at h
  | some pr =>
    rw [hpre] at h
    simp only at h
    obtain ⟨oa, op⟩ := pr
    have hoaLt := locatePre_ack_lt hpre
    have hopLt := locatePre_app_lt hpre
    cases hoa : oa with
    | none =>
      rw [hoa] at h
      unfold correction at h
      cases hop : op with
      | none =>
        rw [hop] at h
        simp at h
        rw [← h.1, ← h.2]
        exact ⟨by simp, by simp, by simp⟩
      | some p =>
        rw [hop] at h
        simp at h
        rw [← h.1, ← h.2]
        refine ⟨by simp, ?_, by simp⟩
        intro x hx
        simp at hx
        subst hx
        exact hopLt p (by rw [hop]; rfl)
    | some a =>
      rw [hoa] at h
      cases hop : op with
      | none =>
        rw [hop] at h
        unfold correction at h
        simp at h
        rw [← h.1, ← h.2]
        refine ⟨?_, by simp, by simp⟩
        intro x hx
        simp at hx
        subst hx
        exact hoaLt a (by rw [hoa]; rfl)
      | some p =>
        rw [hop] at h
        unfold correction at h
        dsimp only at h
        have hpLt : p < c.length := hopLt p (by rw [hop]; rfl)
        have haLt : a < c.length := hoaLt a (by rw [hoa]; rfl)
        by_cases hconf : a > p
        · rw [if_pos hconf] at h
          cases hfs : firstStart ackPatterns (c.take p) with
          | none =>
            rw [hfs] at h
            simp at h
            rw [← h.1, ← h.2]
            refine ⟨by simp, ?_, by simp⟩
            intro x hx
            simp at hx
            subst hx
            exact hpLt
          | some a' =>
            rw [hfs] at h
            dsimp only at h
            cases hab : absorbPage c a' with
            | none => rw [hab] at h; simp at h
            | some a'' =>
              rw [hab] at h
              simp at h
              rw [← h.1, ← h.2]
              have h1 := absorbPage_le hab
              have h2 := correction_rerun_lt hfs
              have h3 := correction_rerun_lt_len hfs
              refine ⟨?_, ?_, ?_⟩
              · intro x hx; simp at hx; omega
              · intro x hx; simp at hx; omega
              · intro x hx y hy; simp at hx hy; omega
        · rw [if_neg hconf] at h
          simp at h
          rw [← h.1, ← h.2]
          refine ⟨?_, ?_, ?_⟩
          · intro x hx; simp at hx; omega
          · intro x hx; simp at hx; omega
          · intro x hx y hy; simp at hx hy; omega

/-- C6: the ordering-conflict correction is idempotent — applying it to any
pair it has itself produced changes nothing. -/
theorem c6_correction_idempotent (c : List Char) (pr pr' : Option Nat × Option Nat)
    (h : correction c pr = some pr') : correction c pr' = some pr' := by
  obtain ⟨oa, op⟩ := pr
  cases hoa : oa with
  | none =>
    rw [hoa] at h
    unfold correction at h
    cases hop : op with
    | none => rw [hop] at h; simp at h; rw [← h]; rfl
    | some p => rw [hop] at h; simp at h; rw [← h]; rfl
  | some a =>
    rw [hoa] at h
    cases hop : op with
    | none =>
      rw [hop] at h
      unfold correction at h
      simp at h
      rw [← h]
      rfl
    | some p =>
      rw [hop] at h
      unfold correction at h
      dsimp only at h
      by_cases hconf : a > p
      · rw [if_pos hconf] at h
        cases hfs : firstStart ackPatterns (c.take p) with
        | none =>
          rw [hfs] at h
          simp at h
          rw [← h]
          rfl
        | some a' =>
          rw [hfs] at h
          dsimp only at h
          cases hab : absorbPage c a' with
          | none => rw [hab] at h; simp at h
          | some a'' =>
            rw [hab] at h
            simp at h
            rw [← h]
            have h1 := absorbPage_le hab
            have h2 := correction_rerun_lt hfs
            unfold correction
            dsimp only
            rw [if_neg (by omega)]
      · rw [if_neg hconf] at h
        simp at h
        rw [← h]
        unfold correction
        dsimp only
        rw [if_neg hconf]

/-! ### The assembler -/

theorem rawSlices_concat (c : List Char) (ack app : Option Nat) :
    (rawSlices c ack app).1 ++ ((rawSlices c ack app).2.1.getD []) ++
      ((rawSlices c ack app).2.2.getD []) = c := by
  unfold rawSlices
  cases app with
  | none =>
    cases ack with
    | none => simp
    | some a => simp [List.take_append_drop]
  | some p =>
    cases ack with
    | none => simp [List.take_append_drop]
    | some a =>
      dsimp only
      by_cases hconf : a > p
      · rw [if_pos hconf]
        simp [List.take_append_drop]
      · rw [if_neg hconf]
        dsimp only
        simp only [Option.getD_some]
        rw [List.take_append_drop, List.take_append_drop]

/-- C10: the raw slices taken by the assembler concatenate back to the
document (absent segments contributing nothing), for every boundary pair
the locator returns. -/
theorem c10_partition (c : List Char) (ack app : Option Nat)
    (_h : find_section_boundaries c = some (ack, app)) :
    (rawSlices c ack app).1 ++ ((rawSlices c ack app).2.1.getD []) ++
      ((rawSlices c ack app).2.2.getD []) = c :=
  rawSlices_concat c ack app

theorem emitted_ne_nil {o : Option (List Char)} {s : List Char}
    (h : s ∈ emitted o) : s ≠ [] := by
  cases o with
  | none => simp [emitted] at h
  | some t =>
    unfold emitted at h
    dsimp only at h
    by_cases ht : t.isEmpty = true
    · rw [if_pos ht] at h
      simp at h
    · rw [if_neg ht] at h
      simp at h
      rw [← h]
      exact fun he => ht (by simp [he])

theorem assembleSegs_elim {c : List Char} {ack app : Option Nat} {title : List Char}
    {out : List Char × Option (List Char) × Option (List Char)}
    (h : assembleSegs c ack app title = some out) :
    ∃ m2, retitleOpt (cleanupSeg (rawSlices c ack app).1) title = some m2 ∧
      out = (m2,
        emitted (((rawSlices c ack app).2.1.map
          (fun s => if s.isEmpty then s else cleanupSeg s)).map
            (fun s => if s.isEmpty then s else backHeader title ++ s)),
        emitted (((rawSlices c ack app).2.2.map
          (fun s => if s.isEmpty then s else cleanupSeg s)).map
            (fun s => if s.isEmpty then s else appHeader title ++ s))) := by
  unfold assembleSegs at h
  dsimp only at h
  cases hr : retitleOpt (cleanupSeg (rawSlices c ack app).1) title with
  | none => rw [hr] at h; simp at h
  | some m2 =>
    rw [hr] at h
    dsimp only [Option.map] at h
    exact ⟨m2, rfl, (Option.some_inj.mp h).symm⟩

/-- C9 (amended): the backmatter and appendix segments are never emitted
empty; the main segment, however, is always written, even when empty. -/
theorem c9_amended (c : List Char) (ack app : Option Nat) (title : List Char)
    (out : List Char × Option (List Char) × Option (List Char))
    (h : assembleSegs c ack app title = some out) :
    (∀ s ∈ out.2.1, s ≠ []) ∧ (∀ s ∈ out.2.2, s ≠ []) := by
  rcases assembleSegs_elim h with ⟨m2, _, hout⟩
  rw [hout]
  exact ⟨fun s hs => emitted_ne_nil hs, fun s hs => emitted_ne_nil hs⟩

theorem cleanupSeg_nil : cleanupSeg [] = [] := by decide

theorem backHeader_not_empty (title : List Char) :
    (backHeader title ++ x).isEmpty = false := by
  simp [backHeader]

theorem appHeader_not_empty (title : List Char) :
    (appHeader title ++ x).isEmpty = false := by
  simp [appHeader]

theorem emitted_eq_some {s : List Char} (h : s.isEmpty = false) :
    emitted (some s) = some s := by
  unfold emitted
  dsimp only
  rw [h]
  simp

/-- C8 (amended): each emitted backmatter/appendix segment is the raw slice
with its final `---` separator (the last `---` followed only by whitespace)
removed and surrounding whitespace stripped, prefixed by the synthesized
heading, blank line and `---` separator line. -/
theorem c8_amended (c : List Char) (ack app : Option Nat) (title : List Char)
    (out : List Char × Option (List Char) × Option (List Char))
    (h : assembleSegs c ack app title = some out) :
    (∀ rb, (rawSlices c ack app).2.1 = some rb → cleanupSeg rb ≠ [] →
        out.2.1 = some (backHeader title ++ cleanupSeg rb)) ∧
      (∀ ra, (rawSlices c ack app).2.2 = some ra → cleanupSeg ra ≠ [] →
        out.2.2 = some (appHeader title ++ cleanupSeg ra)) := by
  rcases assembleSegs_elim h with ⟨m2, _, hout⟩
  rw [hout]
  constructor
  · intro rb hrb hcl
    rw [hrb]
    have hrbne : rb ≠ [] := fun he => hcl (by rw [he]; exact cleanupSeg_nil)
    simp [hrbne, hcl]
    exact emitted_eq_some (backHeader_not_empty title)
  · intro ra hra hcl
    rw [hra]
    have hrane : ra ≠ [] := fun he => hcl (by rw [he]; exact cleanupSeg_nil)
    simp [hrane, hcl]
    exact emitted_eq_some (appHeader_not_empty title)

/-- C5 (amended): with no backmatter and no appendix pattern match anywhere,
the locator returns `(none, none)` and assembly produces only a main
segment: the input with its trailing `---` separator and surrounding
whitespace trimmed and its first level-1 heading (if any) rewritten to
`# <extracted title>` (nothing at all when the extracted title is an
invalid replacement template). -/
theorem c5_amended (c : List Char)
    (hack : ackPatterns.all (fun pat => (searchStart pat c).isNone) = true)
    (happ : appendixPatternsTagged.all (fun pg => (searchStart pg.1 c).isNone) = true) :
    find_section_boundaries c = some (none, none) ∧
      split_paper_segments c =
        (retitleOpt (cleanupSeg c) (extract_title c)).map (fun m => (m, none, none)) := by
  have hbest : bestStart ackPatterns c = none :=
    bestStart_none (fun pat hp =>
      Option.isNone_iff_eq_none.mp (List.all_eq_true.mp hack pat hp))
  have happS : appendixScan c (bestStart ackPatterns c) = none :=
    appendixScan_none (fun pg hp =>
      Option.isNone_iff_eq_none.mp (List.all_eq_true.mp happ pg hp))
  have hfind : find_section_boundaries c = some (none, none) := by
    unfold find_section_boundaries locatePre
    rw [happS, hbest]
    rfl
  refine ⟨hfind, ?_⟩
  unfold split_paper_segments
  rw [hfind]
  rfl

/-- C7: the script is not total — when the extracted title carries a
backslash group reference, the title rewrite's `re.sub` raises
(`invalid group reference`), modelled as `none`. -/
theorem c7_title_template_error :
    split_paper_segments "# Intro\\1\nbody".toList = none := by decide

/-- C1 counterexample: a document whose only heading is a lone `# A …`
line, with no backmatter pattern matching anywhere, is still assigned an
appendix boundary (the claim says the generic patterns should have been
skipped, yielding `none`). -/
theorem c1_counterexample :
    ackPatterns.all (fun pat => (searchStart pat "# A heading\n".toList).isNone) = true ∧
      searchStart appPat6 "# A heading\n".toList = some 0 ∧
      find_section_boundaries "# A heading\n".toList = some (none, some 0) := by decide

/-- C2 counterexample: page-marker absorption can pull both boundaries to
the same page-marker line, so both offsets are returned equal — the claimed
strict `backmatter_start < appendix_start` fails. -/
theorem c2_counterexample :
    find_section_boundaries "a\n### Page 3\n## Acknowledgments\n## Appendix\n".toList =
        some (some 2, some 2) ∧ ¬(2 < 2) := by decide

/-- C4 counterexample: a page marker on the line directly before the
boundary's line (well inside the claimed 4-line window) is not absorbed,
because the scan range `range(len-1, max(0, len-5), -1)` never reaches line
index 0 when fewer than five split pieces precede the boundary. -/
theorem c4_counterexample :
    markerLine "### Page 5".toList = true ∧
      absorbPage "### Page 5\n## Appendix\nz".toList 11 = some 11 ∧
      find_section_boundaries "### Page 5\n## Appendix\nz".toList =
        some (none, some 11) := by decide

/-- C5 counterexample: even with no pattern matching anywhere, the emitted
main segment is not the trimmed input — the title rewrite normalizes the
first level-1 heading (`#  Foo` becomes `# Foo`). -/
theorem c5_counterexample :
    ackPatterns.all (fun pat => (searchStart pat "#  Foo\nbar".toList).isNone) = true ∧
      appendixPatternsTagged.all
        (fun pg => (searchStart pg.1 "#  Foo\nbar".toList).isNone) = true ∧
      split_paper_segments "#  Foo\nbar".toList = some ("# Foo\nbar".toList, none, none) ∧
      "# Foo\nbar".toList ≠ cleanupSeg "#  Foo\nbar".toList := by decide

/-- C8 counterexample: cleanup removes only the final `---` separator, not
the whole trailing run: a backmatter slice ending in two `---` lines keeps
the first of them, unlike the spec-worded full trim. -/
theorem c8_counterexample :
    (rawSlices "a\nhi\n---\n---".toList (some 2) none).2.1 = some "hi\n---\n---".toList ∧
      assembleSegs "a\nhi\n---\n---".toList (some 2) none "T".toList =
        some ("a".toList, some (backHeader "T".toList ++ "hi\n---".toList), none) ∧
      specTrimSepRun "hi\n---\n---".toList = "hi".toList ∧
      backHeader "T".toList ++ "hi\n---".toList ≠
        backHeader "T".toList ++ specTrimSepRun "hi\n---\n---".toList := by decide

/-- C9 counterexample: the main segment is written unconditionally, so an
input that cleans up to nothing is emitted as a present-but-empty main
segment. -/
theorem c9_counterexample :
    split_paper_segments "---".toList = some ([], none, none) := by decide

/-! ### The page-marker lookback window -/

theorem markerLine_nil : markerLine [] = false := by decide

theorem get?_eq_getD {l : List (List Char)} {i : Nat} (h : i < l.length) :
    l.get? i = some (l.getD i []) := by
  cases hg : l.get? i with
  | none => exact absurd (List.get?_eq_none.mp hg) (by omega)
  | some x => rw [List.getD_eq_get?, hg]; rfl

theorem splitNl_append_newline (s : List Char) :
    splitNl (s ++ ['\n']) = splitNl s ++ [[]] := by
  induction s with
  | nil => rfl
  | cons c cs ih =>
    by_cases hc : c = '\n'
    · subst hc
      show splitNl ('\n' :: (cs ++ ['\n'])) = splitNl ('\n' :: cs) ++ [[]]
      unfold splitNl
      simp [ih]
    · show splitNl (c :: (cs ++ ['\n'])) = splitNl (c :: cs) ++ [[]]
      unfold splitNl
      rw [if_neg hc, if_neg hc, ih]
      cases hs : splitNl cs with
      | nil => exact absurd hs (splitNl_ne_nil cs)
      | cons l ls => simp

/-- When the boundary sits at a line start, the last split piece of the
prefix before it is the empty fragment. -/
theorem splitNl_last_nil {c : List Char} {b : Nat} (hls : isLineStart c b = true)
    (hble : b ≤ c.length) :
    (splitNl (c.take b)).getD ((splitNl (c.take b)).length - 1) [] = [] := by
  cases b with
  | zero => rfl
  | succ n =>
    have hnl : c.get? n = some '\n' := by
      unfold isLineStart at hls
      simp only [Nat.succ_ne_zero, Bool.false_or] at hls
      cases hg : c.get? (n + 1 - 1) with
      | none => rw [hg] at hls; simp at hls
      | some ch =>
        rw [hg] at hls
        simp at hls
        rw [show n + 1 - 1 = n by omega] at hg
        rw [hg, hls]
    have htake : c.take (n + 1) = c.take n ++ ['\n'] := by
      rw [List.take_succ, ← List.get?_eq_getElem?, hnl]
      rfl
    rw [htake, splitNl_append_newline]
    rw [List.length_append]
    simp only [List.length_singleton]
    have hlen : (splitNl (List.take n c)).length + 1 - 1 = (splitNl (List.take n c)).length := by
      omega
    rw [hlen, List.getD_eq_get?, List.get?_append_right (le_refl _)]
    simp

theorem scanLoop_skip {before : List Char} {lines : List (List Char)} {b : Nat}
    {xs ys : List Nat}
    (h : ∀ i ∈ xs, ∃ line, lines.get? i = some line ∧ markerLine line = false) :
    scanLoop before lines b (xs ++ ys) = scanLoop before lines b ys := by
  induction xs with
  | nil => rfl
  | cons i rest ih =>
    rcases h i (by simp) with ⟨line, hget, hmk⟩
    rw [List.cons_append]
    show (match lines.get? i with
      | none => none
      | some line =>
        if markerLine line then some ((rfind before line).getD b)
        else scanLoop before lines b (rest ++ ys)) = scanLoop before lines b ys
    rw [hget]
    dsimp only
    rw [if_neg (by simp [hmk])]
    exact ih (fun j hj => h j (by simp [hj]))

/-- C4 (amended): the backward page-marker scan examines the prior lines
with index in `[max 1 (k−3), k−1]` (`k` the boundary's line index), nearest
first — three prior lines at most, and never line 0 when five or fewer
split pieces precede the boundary.  The nearest marker line in that window
pulls the boundary to `rfind`'s offset for that line's text; with no marker
there the boundary is unchanged. -/
theorem c4_amended (c : List Char) (b k : Nat) (lines : List (List Char))
    (hls : isLineStart c b = true) (hble : b ≤ c.length)
    (hlines : lines = splitNl (c.take b)) (hk : k = lines.length - 1) :
    ((∀ j, max 1 (k - 3) ≤ j → j ≤ k - 1 → markerLine (lines.getD j []) = false) →
      absorbPage c b = some b) ∧
    (∀ j, max 1 (k - 3) ≤ j → j ≤ k - 1 → markerLine (lines.getD j []) = true →
      (∀ j', j < j' → j' ≤ k - 1 → markerLine (lines.getD j' []) = false) →
      absorbPage c b = some ((rfind (c.take b) (lines.getD j [])).getD b)) := by
  have hlpos : 0 < lines.length := by
    rw [hlines]
    exact Nat.pos_of_ne_zero (fun h0 => splitNl_ne_nil _ (List.length_eq_zero.mp h0))
  have hlast : lines.getD k [] = [] := by
    rw [hlines, hk, hlines]
    exact splitNl_last_nil hls hble
  have habs : absorbPage c b =
      scanLoop (c.take b) lines b (rangeDown k (k - 4)) := by
    unfold absorbPage
    dsimp only
    rw [← hlines]
    have h5 : lines.length - 1 = k := by omega
    have h6 : lines.length - 5 = k - 4 := by omega
    rw [h5, h6]
  constructor
  · intro hnone
    rw [habs]
    have hall : ∀ i ∈ rangeDown k (k - 4), ∃ line,
        lines.get? i = some line ∧ markerLine line = false := by
      intro i hi
      rcases mem_rangeDown hi with ⟨h1, h2⟩
      have hilt : i < lines.length := by omega
      refine ⟨lines.getD i [], get?_eq_getD hilt, ?_⟩
      by_cases hik : i = k
      · rw [hik, hlast]
        exact markerLine_nil
      · exact hnone i (by omega) (by omega)
    have h0 : scanLoop (c.take b) lines b (rangeDown k (k - 4) ++ []) =
        scanLoop (c.take b) lines b [] := scanLoop_skip hall
    rw [List.append_nil] at h0
    rw [h0]
    rfl
  · intro j hj1 hj2 hmk hnone
    rw [habs]
    have hsplit : rangeDown k (k - 4) = rangeDown k j ++ j :: rangeDown (j - 1) (k - 4) := by
      rw [rangeDown_append (m := j) (by omega) (by omega),
        show rangeDown j (k - 4) = j :: rangeDown (j - 1) (k - 4) from
          rangeDown_cons (by omega)]
    rw [hsplit]
    have hskip : ∀ i ∈ rangeDown k j, ∃ line,
        lines.get? i = some line ∧ markerLine line = false := by
      intro i hi
      rcases mem_rangeDown hi with ⟨h1, h2⟩
      have hilt : i < lines.length := by omega
      refine ⟨lines.getD i [], get?_eq_getD hilt, ?_⟩
      by_cases hik : i = k
      · rw [hik, hlast]
        exact markerLine_nil
      · exact hnone i (by omega) (by omega)
    rw [scanLoop_skip hskip]
    have hjlt : j < lines.length := by omega
    show (match lines.get? j with
      | none => none
      | some line =>
        if markerLine line then some ((rfind (c.take b) line).getD b)
        else scanLoop (c.take b) lines b (rangeDown (j - 1) (k - 4))) =
      some ((rfind (c.take b) (lines.getD j [])).getD b)
    rw [get?_eq_getD hjlt]
    dsimp only
    rw [if_pos hmk]

/-! ### The conflict correction never finds an earlier backmatter match

The rerun of the backmatter search on `content[:appendix_start]` is, on
every reachable conflict state, empty: any match inside the prefix would
already have been a match of the full document strictly before the
appendix boundary, contradicting the minimality of the original
backmatter candidate (the prefix always ends right before a `#`, so even
the `\b` at the end of the two `Acknowledg…` patterns behaves identically
on the prefix and on the full document). -/

theorem scanLoop_cases {before : List Char} {lines : List (List Char)} {b r : Nat}
    {idxs : List Nat} (h : scanLoop before lines b idxs = some r) :
    r = b ∨ ∃ line, markerLine line = true ∧ rfind before line = some r := by
  induction idxs with
  | nil =>
    simp [scanLoop] at h
    exact Or.inl h.symm
  | cons i rest ih =>
    cases hg : lines.get? i with
    | none => simp only [scanLoop, hg] at h; exact absurd h (by simp)
    | some line =>
      simp only [scanLoop, hg] at h
      by_cases hm : markerLine line = true
      · rw [if_pos hm] at h
        cases hr : rfind before line with
        | none =>
          rw [hr] at h
          simp at h
          exact Or.inl h.symm
        | some x =>
          rw [hr] at h
          simp at h
          exact Or.inr ⟨line, hm, by rw [hr, h]⟩
      · rw [if_neg hm] at h
        exact ih h

theorem absorbPage_cases {c : List Char} {b r : Nat} (h : absorbPage c b = some r) :
    r = b ∨ ∃ line, markerLine line = true ∧ rfind (c.take b) line = some r := by
  unfold absorbPage at h
  exact scanLoop_cases h

theorem markerLine_head {line : List Char} (h : markerLine line = true) :
    ∃ ch t, line = ch :: t ∧ isHashChar ch = true := by
  unfold markerLine at h
  rcases matchesAt_exists h with ⟨j, hj⟩
  unfold pageMarkerRE at hj
  unfold endsAt at hj
  rcases List.mem_flatMap.mp hj with ⟨m, hm, _⟩
  rcases clsEnds_head (by simp) hm with ⟨ch, t', ht, hq⟩
  rw [List.drop_zero] at ht
  exact ⟨ch, t', ht, hq⟩

theorem rfind_head_hash {s line : List Char} {r : Nat}
    (hml : markerLine line = true) (hr : rfind s line = some r) :
    s.get? r = some '#' := by
  rcases markerLine_head hml with ⟨ch, t, hline, hch⟩
  have hspec := rfind_spec hr
  rw [hline] at hspec
  cases hd : s.drop r with
  | nil =>
    rw [hd] at hspec
    simp at hspec
  | cons y ys =>
    rw [hd] at hspec
    simp only [List.length_cons, List.take_succ_cons] at hspec
    have hy : y = ch := (List.cons.injEq _ _ _ _ ▸ hspec).1
    have h0 : s.get? r = some y := by
      have := List.get?_drop s r 0
      rw [hd] at this
      simpa using this.symm
    rw [h0, hy]
    have : ch = '#' := of_decide_eq_true hch
    rw [this]

theorem locatePre_components {c : List Char} {a p : Nat}
    (h : locatePre c = some (some a, some p)) :
    ∃ a0 p0, bestStart ackPatterns c = some a0 ∧ absorbPage c a0 = some a ∧
      appendixScan c (bestStart ackPatterns c) = some p0 ∧ absorbPage c p0 = some p := by
  rcases locatePre_elim h with ⟨h1, h2⟩
  cases hb : bestStart ackPatterns c with
  | none =>
    rw [hb] at h1
    unfold optAbsorb at h1
    simp at h1
  | some a0 =>
    rw [hb] at h1 h2
    rcases optAbsorb_some_elim h1 with ⟨ra, hra, hxa⟩
    cases hq : appendixScan c (some a0) with
    | none =>
      rw [hq] at h2
      unfold optAbsorb at h2
      simp at h2
    | some p0 =>
      rw [hq] at h2
      rcases optAbsorb_some_elim h2 with ⟨rp, hrp, hxp⟩
      refine ⟨a0, p0, rfl, ?_, rfl, ?_⟩
      · rw [hra]
        simp at hxa
        rw [hxa]
      · rw [hrp]
        simp at hxp
        rw [hxp]

theorem app_patterns_hdr : ∀ pg ∈ appendixPatternsTagged, ∃ r₀, pg.1 = hdr r₀ := by
  intro pg hmem
  unfold appendixPatternsTagged at hmem
  simp at hmem
  rcases hmem with h | h | h | h | h | h | h <;> rw [h] <;> exact ⟨_, rfl⟩

/-- On every reachable post-absorption appendix boundary, the document
carries a `#` at the boundary offset (either the start of a heading match
or the start of an `rfind`-located page-marker line). -/
theorem conflict_hash {c : List Char} {p0 p : Nat}
    (happ : appendixScan c (bestStart ackPatterns c) = some p0)
    (habs : absorbPage c p0 = some p) : c.get? p = some '#' := by
  rcases absorbPage_cases habs with hpb | ⟨line, hml, hrf⟩
  · subst hpb
    rcases appendixScan_mem happ with ⟨pg, hmem, hv⟩
    rcases app_patterns_hdr pg hmem with ⟨r₀, hpg⟩
    rw [hpg] at hv
    rcases searchStart_head hv with ⟨ch, hget, hch⟩
    rw [hget]
    have : ch = '#' := of_decide_eq_true hch
    rw [this]
  · have hh := rfind_head_hash hml hrf
    have hlt : p < (c.take p0).length := get?_some_lt hh
    rw [List.length_take] at hlt
    rw [← List.get?_take (show p < p0 by omega)]
    exact hh

theorem litMatch_take {l s : List Char} {m i : Nat} (him : i ≤ m)
    (h : litMatch l (s.take m) i = true) :
    litMatch l s i = true ∧ i + l.length ≤ m := by
  induction l generalizing i with
  | nil => exact ⟨rfl, by simpa using him⟩
  | cons ch cs ih =>
    unfold litMatch at h
    cases hg : (s.take m).get? i with
    | none => rw [hg] at h; exact absurd h (by simp)
    | some d =>
      rw [hg] at h
      have hlt : i < m := by
        have := get?_some_lt hg
        rw [List.length_take] at this
        omega
      rw [List.get?_take hlt] at hg
      rcases Bool.and_eq_true_iff.mp h with ⟨heq, hrest⟩
      rcases ih (by omega) hrest with ⟨h1, h2⟩
      refine ⟨?_, by simp; omega⟩
      unfold litMatch
      rw [hg]
      dsimp only
      rw [heq, h1]
      rfl

theorem clsEnds_take {q : Char → Bool} {lo : Nat} {hi : Option Nat} {t : List Char}
    {m i j : Nat} (h : j ∈ clsEnds q lo hi (t.take m) i) :
    j ∈ clsEnds q lo hi t i ∧ j ≤ i + m := by
  induction t generalizing lo hi m i with
  | nil =>
    rw [List.take_nil] at h
    rcases clsEnds_mem h with ⟨h1, h2, _⟩
    simp at h2
    exact ⟨h, by omega⟩
  | cons ch rest ih =>
    cases m with
    | zero =>
      rw [List.take_zero] at h
      unfold clsEnds at h
      by_cases hlo : lo = 0
      · rw [if_pos hlo] at h
        simp at h
        subst h
        refine ⟨?_, by omega⟩
        unfold clsEnds
        rw [if_pos hlo]
        simp
      · rw [if_neg hlo] at h
        exact absurd h (by simp)
    | succ m' =>
      rw [List.take_succ_cons] at h
      unfold clsEnds at h
      rcases List.mem_append.mp h with h1 | h2
      · by_cases hlo : lo = 0
        · rw [if_pos hlo] at h1
          simp at h1
          subst h1
          refine ⟨?_, by omega⟩
          unfold clsEnds
          rw [if_pos hlo]
          simp
        · rw [if_neg hlo] at h1
          exact absurd h1 (by simp)
      · by_cases hq : (hiPos hi && q ch) = true
        · rw [if_pos hq] at h2
          rcases ih h2 with ⟨h3, h4⟩
          refine ⟨?_, by omega⟩
          unfold clsEnds
          refine List.mem_append.mpr (Or.inr ?_)
          rw [if_pos hq]
          exact h3
        · rw [if_neg hq] at h2
          exact absurd h2 (by simp)

theorem prevWord_take {s : List Char} {m i : Nat} (him : i ≤ m) :
    prevWord (s.take m) i = prevWord s i := by
  unfold prevWord
  by_cases h0 : i = 0
  · rw [if_pos h0, if_pos h0]
  · rw [if_neg h0, if_neg h0, List.get?_take (by omega)]

theorem curWord_take {s : List Char} {m i : Nat} (hw : curWord s m = false)
    (him : i ≤ m) : curWord (s.take m) i = curWord s i := by
  by_cases hlt : i < m
  · unfold curWord
    rw [List.get?_take hlt]
  · have him : i = m := by omega
    subst him
    have hnone : (s.take i).get? i = none :=
      List.get?_eq_none.mpr (by rw [List.length_take]; omega)
    unfold curWord
    rw [hnone]
    unfold curWord at hw
    cases hg : s.get? i with
    | none => rfl
    | some ch => rw [hg] at hw; rw [hw]

theorem isLineStart_take {s : List Char} {m i : Nat} (him : i ≤ m) :
    isLineStart (s.take m) i = isLineStart s i := by
  unfold isLineStart
  by_cases h0 : i = 0
  · rw [h0]
    rfl
  · have : (i = 0 : Prop) = False := by simp [h0]
    rw [List.get?_take (show i - 1 < m by omega)]

theorem endsAt_take (r : RE) {s : List Char} {m i j : Nat} (hne : noEol r = true)
    (hw : curWord s m = false) (him : i ≤ m) (h : j ∈ endsAt r (s.take m) i) :
    j ∈ endsAt r s i ∧ j ≤ m := by
  induction r generalizing i j with
  | lit l =>
    unfold endsAt at h ⊢
    by_cases hm : litMatch l (s.take m) i = true
    · rw [if_pos hm] at h
      simp at h
      rcases litMatch_take him hm with ⟨h1, h2⟩
      rw [if_pos h1]
      simp [h]
      omega
    · rw [if_neg hm] at h
      exact absurd h (by simp)
  | cls q lo hi =>
    unfold endsAt at h ⊢
    rw [List.drop_take] at h
    rcases clsEnds_take h with ⟨h1, h2⟩
    exact ⟨h1, by omega⟩
  | opt r ih =>
    unfold endsAt at h ⊢
    rcases List.mem_cons.mp h with h1 | h2
    · subst h1
      exact ⟨by simp, him⟩
    · rcases ih hne him h2 with ⟨h3, h4⟩
      exact ⟨by simp [h3], h4⟩
  | alt r₁ r₂ ih₁ ih₂ =>
    unfold noEol at hne
    rcases Bool.and_eq_true_iff.mp hne with ⟨hne1, hne2⟩
    unfold endsAt at h ⊢
    rcases List.mem_append.mp h with h1 | h2
    · rcases ih₁ hne1 him h1 with ⟨h3, h4⟩
      exact ⟨List.mem_append.mpr (Or.inl h3), h4⟩
    · rcases ih₂ hne2 him h2 with ⟨h3, h4⟩
      exact ⟨List.mem_append.mpr (Or.inr h3), h4⟩
  | seq r₁ r₂ ih₁ ih₂ =>
    unfold noEol at hne
    rcases Bool.and_eq_true_iff.mp hne with ⟨hne1, hne2⟩
    unfold endsAt at h ⊢
    rcases List.mem_flatMap.mp h with ⟨jmid, hjm, hj⟩
    rcases ih₁ hne1 him hjm with ⟨h3, h4⟩
    rcases ih₂ hne2 h4 hj with ⟨h5, h6⟩
    exact ⟨List.mem_flatMap.mpr ⟨jmid, h3, h5⟩, h6⟩
  | wb =>
    unfold endsAt at h ⊢
    rw [prevWord_take him, curWord_take hw him] at h
    by_cases hc : prevWord s i ≠ curWord s i
    · rw [if_pos hc] at h ⊢
      simp at h
      exact ⟨by simp [h], by omega⟩
    · rw [if_neg hc] at h
      exact absurd h (by simp)
  | eol => simp [noEol] at hne

theorem matchesAt_take {r : RE} {s : List Char} {m i : Nat} (hne : noEol r = true)
    (hw : curWord s m = false) (him : i ≤ m) (h : matchesAt r (s.take m) i = true) :
    matchesAt r s i = true := by
  rcases matchesAt_exists h with ⟨j, hj⟩
  exact matchesAt_of_mem (endsAt_take r hne hw him hj).1

theorem all_noEol_ack : ∀ pat ∈ ackPatterns, noEol pat = true := by
  intro pat hmem
  have hall : ackPatterns.all noEol = true := by decide
  exact List.all_eq_true.mp hall pat hmem

/-- In a reachable conflict state, no backmatter pattern matches the
restricted prefix at all. -/
theorem conflict_no_prefix_match {c : List Char} {a p : Nat}
    (hpre : locatePre c = some (some a, some p)) (hconf : p < a) :
    ∀ pat ∈ ackPatterns, searchStart pat (c.take p) = none := by
  intro pat hmem
  rcases locatePre_components hpre with ⟨a0, p0, hb, haa, hq, hpa⟩
  have hhash : c.get? p = some '#' := conflict_hash hq hpa
  have hword : curWord c p = false := by
    unfold curWord
    rw [hhash]
    decide
  have hplen : p < c.length := get?_some_lt hhash
  by_contra hne
  cases hs : searchStart pat (c.take p) with
  | none => exact hne hs
  | some i =>
    rcases searchStart_spec hs with ⟨hilen, hils, himatch⟩
    have hilt : i < (c.take p).length :=
      searchStart_lt_len (all_consumes_ack pat hmem) hs
    rw [List.length_take] at hilt
    have hip : i ≤ p := by omega
    have hmc : matchesAt pat c i = true :=
      matchesAt_take (all_noEol_ack pat hmem) hword hip himatch
    have hlsc : isLineStart c i = true := by
      rw [← isLineStart_take hip]
      exact hils
    rcases searchStart_le_of hlsc hmc (by omega) with ⟨j, hj, hji⟩
    rcases bestStart_le hmem hj with ⟨b0, hb0, hb0j⟩
    rw [hb] at hb0
    have hba : a0 = b0 := by
      simpa using hb0
    have halea : a ≤ a0 := absorbPage_le haa
    omega

/-- C3: in every ordering conflict, the corrected backmatter boundary
agrees with the full earliest-offset backmatter category search on
`document[:appendix_start]` — both are `None`: the first-pattern-in-list
rerun cannot differ from the minimum-by-offset search because the
restricted prefix admits no backmatter match at all. -/
theorem c3_search_restricted (c : List Char) (a p : Nat)
    (hpre : locatePre c = some (some a, some p)) (hconf : p < a) :
    find_section_boundaries c = some (bestStart ackPatterns (c.take p), some p) := by
  have hnone := conflict_no_prefix_match hpre hconf
  have hfs : firstStart ackPatterns (c.take p) = none := firstStart_none hnone
  have hbs : bestStart ackPatterns (c.take p) = none := bestStart_none hnone
  unfold find_section_boundaries
  rw [hpre]
  unfold correction
  dsimp only
  rw [if_pos (by omega), hfs, hbs]

theorem c3_witness :
    0 < 12 ∧
      find_section_boundaries "## Appendix\n## Acknowledgments x\n".toList =
        some (bestStart ackPatterns ("## Appendix\n## Acknowledgments x\n".toList.take 0),
          some 0) :=
  ⟨by decide,
    c3_search_restricted "## Appendix\n## Acknowledgments x\n".toList 12 0
      (by decide) (by decide)⟩

/-! ### Concrete witnesses -/

theorem c2_witness :
    (∀ a ∈ (some 2 : Option Nat),
        a < ("a\n### Page 3\n## Acknowledgments\n## Appendix\n".toList).length) ∧
      (∀ p ∈ (some 2 : Option Nat),
        p < ("a\n### Page 3\n## Acknowledgments\n## Appendix\n".toList).length) ∧
      (∀ a ∈ (some 2 : Option Nat), ∀ p ∈ (some 2 : Option Nat), a ≤ p) :=
  c2_amended "a\n### Page 3\n## Acknowledgments\n## Appendix\n".toList
    (some 2) (some 2) (by decide)

theorem c4_witness :
    absorbPage "a\n### Page 3\n## Acknowledgments\n## Appendix\n".toList 13 =
      some ((rfind ("a\n### Page 3\n## Acknowledgments\n## Appendix\n".toList.take 13)
        ((splitNl ("a\n### Page 3\n## Acknowledgments\n## Appendix\n".toList.take 13)).getD
          1 [])).getD 13) :=
  (c4_amended "a\n### Page 3\n## Acknowledgments\n## Appendix\n".toList 13 2
    (splitNl ("a\n### Page 3\n## Acknowledgments\n## Appendix\n".toList.take 13))
    (by decide) (by decide) rfl (by decide)).2
    1 (by decide) (by decide) (by decide)
    (fun j' h1 h2 => False.elim (by omega))

theorem c5_witness :
    find_section_boundaries "hello".toList = some (none, none) ∧
      split_paper_segments "hello".toList =
        (retitleOpt (cleanupSeg "hello".toList) (extract_title "hello".toList)).map
          (fun m => (m, none, none)) :=
  c5_amended "hello".toList (by decide) (by decide)

theorem c6_witness :
    correction "## Appendix\n## Acknowledgments x\n".toList (none, some 0) =
      some (none, some 0) :=
  c6_correction_idempotent "## Appendix\n## Acknowledgments x\n".toList
    (some 12, some 0) (none, some 0) (by decide)

theorem c8_witness :
    ("a".toList, some (backHeader "T".toList ++ "hi\n---".toList),
        (none : Option (List Char))).2.1 =
      some (backHeader "T".toList ++ cleanupSeg "hi\n---\n---".toList) :=
  (c8_amended "a\nhi\n---\n---".toList (some 2) none "T".toList
    ("a".toList, some (backHeader "T".toList ++ "hi\n---".toList), none) (by decide)).1
    "hi\n---\n---".toList (by decide) (by decide)

theorem c9_witness :
    (∀ s ∈ (("ab".toList, none, none) :
        List Char × Option (List Char) × Option (List Char)).2.1, s ≠ []) ∧
      (∀ s ∈ (("ab".toList, none, none) :
        List Char × Option (List Char) × Option (List Char)).2.2, s ≠ []) :=
  c9_amended "ab".toList none none "T".toList ("ab".toList, none, none) (by decide)

theorem c10_witness :
    (rawSlices "a\n### Page 3\n## Acknowledgments\n## Appendix\n".toList
        (some 2) (some 2)).1 ++
      ((rawSlices "a\n### Page 3\n## Acknowledgments\n## Appendix\n".toList
        (some 2) (some 2)).2.1.getD []) ++
      ((rawSlices "a\n### Page 3\n## Acknowledgments\n## Appendix\n".toList
        (some 2) (some 2)).2.2.getD []) =
      "a\n### Page 3\n## Acknowledgments\n## Appendix\n".toList :=
  c10_partition "a\n### Page 3\n## Acknowledgments\n## Appendix\n".toList
    (some 2) (some 2) (by decide)

end SplitPaper
